import Mathlib

/-!
Order-book broadcaster (`backend/main.go`).

A shallow embedding of the price aggregator (`calculateAveragePrice`), the
upstream ingestion loop (`connectToBinance`), the hub's event loop
(`Server.run`), the fan-out worker (`Server.worker`) and their use of the
mutex, followed by the properties of the specification that were checked against them.
-/

namespace OrderBookSrv

/-! ## Data model -/

/-- The `OrderBook` struct: `LastUpdateID int64`, `Bids [][]string`,
`Asks [][]string`. -/
structure OrderBook where
  LastUpdateID : Int
  Bids : List (List String)
  Asks : List (List String)

/-- The `float64` operations that `calculateAveragePrice` uses, together with
`strconv.ParseFloat(s, 64)`, taken as parameters: `ParseFloat s = none` stands
for `err != nil`.  The two laws are the facts about `==` on `float64` that the
function relies on: `0.0 == 0` holds, and a counter that started at `0.0` and
was incremented at least once does not compare equal to `0`. -/
structure Float64 where
  F : Type
  zero : F
  one : F
  add : F → F → F
  div : F → F → F
  eqZero : F → Bool
  ParseFloat : String → Option F
  eqZero_zero : eqZero zero = true
  eqZero_incr : ∀ n : Nat, eqZero ((fun c => add c one)^[n + 1] zero) = false

/-- A run-time panic of the Go program. -/
inductive Panic where
  | indexOutOfRange
  deriving DecidableEq, Repr

/-! ## `calculateAveragePrice` -/

/-- One of the two `for _, bid := range ...` loops of `calculateAveragePrice`,
started with the accumulators `(sum, count)`.  `bid[0]` on an entry of length
zero is an index out of range; a parse error is the `continue` branch. -/
def sumPrices (M : Float64) :
    List (List String) → M.F × M.F → Except Panic (M.F × M.F)
  | [], acc => .ok acc
  | [] :: _, _ => .error Panic.indexOutOfRange
  | (s :: _) :: rest, (sum, count) =>
    match M.ParseFloat s with
    | none => sumPrices M rest (sum, count)
    | some price => sumPrices M rest (M.add sum price, M.add count M.one)

/-- The function `calculateAveragePrice`: the bid loop, the ask loop, then the
`count == 0` guard and the division. -/
def calculateAveragePrice (M : Float64) (orderBook : OrderBook) : Except Panic M.F :=
  match sumPrices M orderBook.Bids (M.zero, M.zero) with
  | .error e => .error e
  | .ok afterBids =>
    match sumPrices M orderBook.Asks afterBids with
    | .error e => .error e
    | .ok (sum, count) =>
      if M.eqZero count then .ok M.zero else .ok (M.div sum count)

/-! ## `connectToBinance` -/

/-- What one pass of the read loop gets from `c.ReadMessage()` followed by
`json.Unmarshal`: a read error, or a frame that decodes (`some`) or does not
(`none`). -/
inductive ReadResult where
  | readError
  | frame (decoded : Option OrderBook)

/-- How the read loop stands once the given read results are consumed. -/
inductive LoopExit where
  | returned
  | panicked (p : Panic)
  | reading
  deriving DecidableEq, Repr

/-- The values sent on `s.broadcast` and the way the loop ended. -/
structure Ingest (M : Float64) where
  emitted : List M.F
  exit : LoopExit

/-- The `for` loop of `connectToBinance` over a finite sequence of read
results: a read error returns, an undecodable frame continues, a decoded frame
is averaged and the average is sent on `s.broadcast`. -/
def connectToBinance (M : Float64) : List ReadResult → Ingest M
  | [] => ⟨[], .reading⟩
  | .readError :: _ => ⟨[], .returned⟩
  | .frame none :: rest => connectToBinance M rest
  | .frame (some orderBook) :: rest =>
    match calculateAveragePrice M orderBook with
    | .error p => ⟨[], .panicked p⟩
    | .ok avgPrice =>
      let r := connectToBinance M rest
      ⟨avgPrice :: r.emitted, r.exit⟩

/-! ## An exact instance of the numeric parameters -/

/-- Value of a string of decimal digits, `none` if a character is not a digit. -/
def digitsValue : List Char → Option Nat
  | [] => some 0
  | c :: cs =>
    if c.isDigit then
      (digitsValue cs).map (fun v => (c.toNat - 48) * 10 ^ cs.length + v)
    else none

/-- Plain decimal literals `ddd` and `ddd.ddd` (at least one digit), read as
rationals: the fragment of the `ParseFloat` syntax used by the scenarios. -/
def parseDecimal (s : String) : Option ℚ :=
  match s.toList.span (fun c => c != '.') with
  | (ip, []) => if ip = [] then none else (digitsValue ip).map (fun n => (n : ℚ))
  | (ip, _ :: fp) =>
    if ip = [] ∧ fp = [] then none
    else
      match digitsValue ip, digitsValue fp with
      | some n, some m => some ((n : ℚ) + (m : ℚ) / (10 : ℚ) ^ fp.length)
      | _, _ => none

/-- Exact rational arithmetic with decimal literals. -/
def ratModel : Float64 where
  F := ℚ
  zero := 0
  one := 1
  add := fun a b => a + b
  div := fun a b => a / b
  eqZero := fun a => decide (a = 0)
  ParseFloat := parseDecimal
  eqZero_zero := by simp
  eqZero_incr := by
    intro n
    have h : ∀ k : Nat, ((fun c : ℚ => c + 1)^[k]) 0 = (k : ℚ) := by
      intro k
      induction k with
      | zero => simp
      | succ j ih => rw [Function.iterate_succ_apply', ih]; push_cast; ring
    simp only [decide_eq_false_iff_not]
    rw [h (n + 1)]
    exact_mod_cast Nat.succ_ne_zero n

/-! ## The hub: `Server.run` and `Server.worker` -/

/-- A `*Client`: the identity of one client handle. -/
abbrev Client := Nat

/-- The part of `Server` the event loop works on: the key set of
`clients map[*Client]bool`, with the effects on the client connections kept as
two logs, the `WriteJSON` calls and the `Close` calls, in the order made. -/
structure Server (V : Type) where
  clients : Finset Client
  writes : List (Client × V)
  closed : List Client

/-- The result of `newServer()`: no client, nothing written or closed. -/
def newServer (V : Type) : Server V := ⟨∅, [], []⟩

/-- The list `order` is an order in which `range` may yield the keys of the map:
every key once. -/
def RangeOrder (order : List Client) (clients : Finset Client) : Prop :=
  order.Nodup ∧ order.toFinset = clients

instance (order : List Client) (clients : Finset Client) :
    Decidable (RangeOrder order clients) := by
  unfold RangeOrder; infer_instance

/-- The body of the `case avgPrice := <-s.broadcast` branch of `run`, between
`Lock` and `Unlock`: the keys come in the order `order`, a key that was deleted
before it is reached is not produced, `writeErr client` tells whether
`client.conn.WriteJSON(avgPrice)` returns an error, and on an error the
connection is closed and the key deleted. -/
def broadcastRange {V : Type} (avgPrice : V) (writeErr : Client → Bool) :
    List Client → Server V → Server V
  | [], s => s
  | client :: rest, s =>
    if client ∈ s.clients then
      if writeErr client then
        broadcastRange avgPrice writeErr rest
          { clients := s.clients.erase client
            writes := s.writes ++ [(client, avgPrice)]
            closed := s.closed ++ [client] }
      else
        broadcastRange avgPrice writeErr rest
          { s with writes := s.writes ++ [(client, avgPrice)] }
    else broadcastRange avgPrice writeErr rest s

/-- The body of one pass of `worker`, between `Lock` and `Unlock`:
`client.conn.WriteJSON(msg)` for every key, the returned error dropped. -/
def workerRange {V : Type} (msg : V) : List Client → Server V → Server V
  | [], s => s
  | client :: rest, s =>
    if client ∈ s.clients then
      workerRange msg rest { s with writes := s.writes ++ [(client, msg)] }
    else workerRange msg rest s

/-- One round of `Server.worker` for the value `msg` taken from `s.broadcast`. -/
def Server.worker {V : Type} (s : Server V) (msg : V) (order : List Client) : Server V :=
  workerRange msg order s

/-- What the `select` of `run` receives: a client on `addClient`, a client on
`removeClient`, or a value on `broadcast`; for a value, the order in which the
map is ranged over and the outcome of each write come with it. -/
inductive Event (V : Type) where
  | addClient (client : Client)
  | removeClient (client : Client)
  | broadcast (avgPrice : V) (order : List Client) (writeErr : Client → Bool)

/-- One pass of the `for { select { ... } }` of `run`. -/
def Server.step {V : Type} (s : Server V) : Event V → Server V
  | .addClient client => { s with clients := insert client s.clients }
  | .removeClient client => { s with clients := s.clients.erase client }
  | .broadcast avgPrice order writeErr => broadcastRange avgPrice writeErr order s

/-- The loop `run` over a finite sequence of received events. -/
def Server.run {V : Type} (s : Server V) (events : List (Event V)) : Server V :=
  events.foldl Server.step s

/-! ## Lock and registry actions of `run` and `worker` -/

/-- What a goroutine does to the mutex `s.mu`, to the map `s.clients` and to a
client connection, one step at a time: `s.mu.Lock()`, `s.mu.Unlock()`,
`s.clients[client] = true`, `delete(s.clients, client)`, one advance of
`range s.clients` (the key it yields, or the end of the map),
`client.conn.WriteJSON`, `client.conn.Close()`. -/
inductive Act where
  | lock
  | unlock
  | mapInsert (client : Client)
  | mapDelete (client : Client)
  | mapRange (next : Option Client)
  | connWrite (client : Client)
  | connClose (client : Client)
  deriving DecidableEq, Repr

/-- The action reads or writes the membership of the registry. -/
def Act.isRegistry : Act → Bool
  | .mapInsert _ => true
  | .mapDelete _ => true
  | .mapRange _ => true
  | _ => false

/-- The action is a `Lock` or an `Unlock`. -/
def Act.isMutex : Act → Bool
  | .lock => true
  | .unlock => true
  | _ => false

/-- The actions of the `for client := range s.clients` loop in the value branch
of `run`, in the order made: the key is produced, written to, and on a write
error closed and deleted; the last advance of the range finds the end. -/
def broadcastActs (writeErr : Client → Bool) : List Client → Finset Client → List Act
  | [], _ => [.mapRange none]
  | client :: rest, clients =>
    if client ∈ clients then
      if writeErr client then
        .mapRange (some client) :: .connWrite client :: .connClose client ::
          .mapDelete client :: broadcastActs writeErr rest (clients.erase client)
      else
        .mapRange (some client) :: .connWrite client ::
          broadcastActs writeErr rest clients
    else broadcastActs writeErr rest clients

/-- The actions of the `for client := range s.clients` loop of `worker`. -/
def workerActs : List Client → Finset Client → List Act
  | [], _ => [.mapRange none]
  | client :: rest, clients =>
    if client ∈ clients then
      .mapRange (some client) :: .connWrite client :: workerActs rest clients
    else workerActs rest clients

/-- The actions of one pass of the `select` of `run`, with the `s.mu.Lock()`
and `s.mu.Unlock()` of the branch taken. -/
def Server.stepActs {V : Type} (s : Server V) : Event V → List Act
  | .addClient client => [.lock, .mapInsert client, .unlock]
  | .removeClient client => [.lock, .mapDelete client, .unlock]
  | .broadcast _ order writeErr =>
    .lock :: (broadcastActs writeErr order s.clients ++ [.unlock])

/-- The actions of `run` over a finite sequence of received events. -/
def Server.runActs {V : Type} (s : Server V) : List (Event V) → List Act
  | [] => []
  | e :: rest => s.stepActs e ++ (s.step e).runActs rest

/-- The actions of one round of `worker`: `Lock`, the loop, `Unlock`. -/
def Server.workerRoundActs {V : Type} (s : Server V) (order : List Client) : List Act :=
  .lock :: (workerActs order s.clients ++ [.unlock])

/-- The actions of a worker over its rounds, each with the registry it finds
and the order in which the keys come. -/
def workerRoundsActs {V : Type} : List (Server V × List Client) → List Act
  | [] => []
  | r :: rest => r.1.workerRoundActs r.2 ++ workerRoundsActs rest

/-- The goroutines of the program that hold a `*Server` or a client connection:
the `run` loop over its events, a `worker` over its rounds, and a
`handleConnections`, which hands its client over on the channels and closes the
connection when the client is gone. -/
inductive Goroutine (V : Type) where
  | run (s : Server V) (events : List (Event V))
  | worker (rounds : List (Server V × List Client))
  | handleConnections (client : Client)

/-- The lock, registry and connection actions of a goroutine, in program order. -/
def Goroutine.acts {V : Type} : Goroutine V → List Act
  | .run s events => s.runActs events
  | .worker rounds => workerRoundsActs rounds
  | .handleConnections client => [.connClose client]

/-- The lock discipline of one goroutine, `held` telling whether it holds the
lock before the actions: `Lock` only when not holding, `Unlock` and every
registry access only when holding, and nothing held at the end. -/
def underLock : Bool → List Act → Bool
  | held, [] => !held
  | held, .lock :: rest => !held && underLock true rest
  | held, .unlock :: rest => held && underLock false rest
  | held, .mapInsert _ :: rest => held && underLock held rest
  | held, .mapDelete _ :: rest => held && underLock held rest
  | held, .mapRange _ :: rest => held && underLock held rest
  | held, .connWrite _ :: rest => underLock held rest
  | held, .connClose _ :: rest => underLock held rest

/-- The goroutine is inside a critical section: of its remaining actions, the
first that is a `Lock` or an `Unlock` is an `Unlock`. -/
def insideCritical : List Act → Bool
  | [] => false
  | .lock :: _ => false
  | .unlock :: _ => true
  | _ :: rest => insideCritical rest

/-- The goroutines as scheduled: who holds `s.mu`, if anyone, and the actions
each goroutine has still to make. -/
structure Interleaving where
  holder : Option Nat
  pending : List (List Act)
  deriving DecidableEq, Repr

/-- The goroutines before any of them has made a step: the mutex is unlocked. -/
def Interleaving.start {V : Type} (gs : List (Goroutine V)) : Interleaving :=
  ⟨none, gs.map Goroutine.acts⟩

/-- Goroutine `i` makes its next action, under the semantics of `sync.Mutex`:
`Lock` goes through only when the mutex is unlocked and makes `i` the holder,
`Unlock` of a locked mutex unlocks it whoever calls, `Unlock` of an unlocked
mutex is a fatal error; `none` when `i` has no action left or cannot step. -/
def Interleaving.step (c : Interleaving) (i : Nat) : Option Interleaving :=
  match c.pending[i]? with
  | none => none
  | some [] => none
  | some (.lock :: rest) =>
    if c.holder = none then some ⟨some i, c.pending.set i rest⟩ else none
  | some (.unlock :: rest) =>
    if c.holder = none then none else some ⟨none, c.pending.set i rest⟩
  | some (_ :: rest) => some ⟨c.holder, c.pending.set i rest⟩

/-- The goroutines step in the order of the schedule; `none` when the schedule
cannot be run. -/
def Interleaving.exec (c : Interleaving) : List Nat → Option Interleaving
  | [] => some c
  | i :: rest =>
    match c.step i with
    | none => none
    | some d => d.exec rest

/-- Every goroutine keeps the lock discipline on what it has still to do, as the
holder if it is the holder and as a non-holder otherwise. -/
def Interleaving.Disciplined (c : Interleaving) : Prop :=
  ∀ i t, c.pending[i]? = some t → underLock (decide (c.holder = some i)) t = true

/-- The registry after the actions: an insert adds the key, a delete removes it,
the other actions leave the map as it is. -/
def applyActs : Finset Client → List Act → Finset Client
  | clients, [] => clients
  | clients, .mapInsert client :: rest => applyActs (insert client clients) rest
  | clients, .mapDelete client :: rest => applyActs (clients.erase client) rest
  | clients, _ :: rest => applyActs clients rest

/-- The `run` loop over a join, a value event with a failing write and a leave,
beside a worker with one round and the `handleConnections` of the client. -/
def sampleGoroutines : List (Goroutine ℚ) :=
  [.run (newServer ℚ)
     [.addClient 1, .broadcast 101 [1] (fun _ => true), .removeClient 1],
   .worker [(⟨{1}, [], []⟩, [1])],
   .handleConnections 1]

/-- The join is made by `run`, then the worker takes the lock and writes to the
client, while `handleConnections` closes the connection. -/
def sampleSchedule : List Nat := [0, 0, 0, 1, 1, 2, 1]

/-- The state reached by `sampleSchedule`: the worker holds the lock and is about
to advance its range, `run` waits before its next `Lock`. -/
def sampleReached : Interleaving :=
  ⟨some 1,
   [[.lock, .mapRange (some 1), .connWrite 1, .connClose 1, .mapDelete 1, .mapRange none,
     .unlock, .lock, .mapDelete 1, .unlock],
    [.mapRange none, .unlock],
    []]⟩

/-! ## Words of the specification -/

/-- The prices of the entries whose first field parses, in order. -/
def parseablePrices (M : Float64) (entries : List (List String)) : List M.F :=
  entries.filterMap (fun entry => entry.head?.bind M.ParseFloat)

/-- The sum of a list of prices, added up from `0.0` in order. -/
def priceSum (M : Float64) (prices : List M.F) : M.F :=
  prices.foldl M.add M.zero

/-- The number `n` as a `float64` counter: `0.0` incremented `n` times. -/
def priceCount (M : Float64) (n : Nat) : M.F :=
  (fun c => M.add c M.one)^[n] M.zero

/-- Every entry has a first field. -/
def FieldsPresent (entries : List (List String)) : Prop :=
  ∀ entry ∈ entries, entry ≠ []

/-- What an event says about the membership of `client`: a join of it, a leave
of it, or nothing. -/
def joinLeaveOf {V : Type} (client : Client) : Event V → Option Bool
  | .addClient c => if c = client then some true else none
  | .removeClient c => if c = client then some false else none
  | .broadcast _ _ _ => none

/-- The most recent join/leave event of `client` in the sequence is a join. -/
def LastIsJoin {V : Type} (client : Client) (events : List (Event V)) : Prop :=
  (events.filterMap (joinLeaveOf client)).getLast? = some true

/-- No write of the event fails. -/
def Event.writesSucceed {V : Type} : Event V → Prop
  | .broadcast _ _ writeErr => ∀ c, writeErr c = false
  | _ => True

/-- No client write fails in the whole sequence. -/
def NoWriteFails {V : Type} (events : List (Event V)) : Prop :=
  ∀ e ∈ events, e.writesSucceed

/-- The write attempts made between the state `s` and the later state `t`. -/
def writesSince {V : Type} (s t : Server V) : List (Client × V) :=
  t.writes.drop s.writes.length

/-- The decoded frames that come before the first read error. -/
def framesBeforeReadError : List ReadResult → List OrderBook
  | [] => []
  | .readError :: _ => []
  | .frame none :: rest => framesBeforeReadError rest
  | .frame (some orderBook) :: rest => orderBook :: framesBeforeReadError rest

/-- The result is a value, not a panic. -/
def isOk {ε α : Type} : Except ε α → Bool
  | .ok _ => true
  | .error _ => false

/-! ## Sample inputs -/

/-- Two joins, a value event without failure, a leave and a join again. -/
def sampleEvents : List (Event ℚ) :=
  [.addClient 1, .addClient 2, .broadcast 101 [1, 2] (fun _ => false),
   .removeClient 1, .addClient 1]

/-- Scenario 3 after its first broadcast: three clients joined and `101` sent to
each of them without failure. -/
def afterFirstBroadcast : Server ℚ :=
  (newServer ℚ).run
    [.addClient 1, .addClient 2, .addClient 3, .broadcast 101 [1, 2, 3] (fun _ => false)]

/-- Three registered clients, nothing written or closed yet. -/
def threeClients : Server ℚ := ⟨{1, 2, 3}, [], []⟩

/-! ## Facts about `calculateAveragePrice` and `connectToBinance` -/

theorem sumPrices_of_fieldsPresent (M : Float64) (entries : List (List String))
    (acc : M.F × M.F) (h : FieldsPresent entries) :
    sumPrices M entries acc =
      .ok ((parseablePrices M entries).foldl M.add acc.1,
           (fun c => M.add c M.one)^[(parseablePrices M entries).length] acc.2) := by
  induction entries generalizing acc with
  | nil => simp [sumPrices, parseablePrices]
  | cons entry rest ih =>
    have hrest : FieldsPresent rest := fun e he => h e (List.mem_cons_of_mem _ he)
    cases entry with
    | nil => exact absurd rfl (h [] (List.mem_cons_self _ _))
    | cons s fields =>
      obtain ⟨sum, count⟩ := acc
      cases hp : M.ParseFloat s with
      | none =>
        simp only [sumPrices, hp]
        rw [ih _ hrest]
        simp [parseablePrices, List.filterMap_cons, hp]
      | some price =>
        simp only [sumPrices, hp]
        rw [ih _ hrest]
        simp [parseablePrices, List.filterMap_cons, hp]

theorem sumPrices_of_fieldless (M : Float64) (entries : List (List String))
    (acc : M.F × M.F) (h : [] ∈ entries) :
    sumPrices M entries acc = .error Panic.indexOutOfRange := by
  induction entries generalizing acc with
  | nil => simp at h
  | cons entry rest ih =>
    cases entry with
    | nil => simp [sumPrices]
    | cons s fields =>
      have hrest : [] ∈ rest := by simpa using h
      obtain ⟨sum, count⟩ := acc
      cases hp : M.ParseFloat s <;> simp only [sumPrices, hp] <;> exact ih _ hrest

/-- On an order book whose entries all have a first field and of which at least
one parses, `calculateAveragePrice` returns the sum of the parseable prices of
both sides divided by their number. -/
theorem calculateAveragePrice_mean (M : Float64) (orderBook : OrderBook)
    (hf : FieldsPresent (orderBook.Bids ++ orderBook.Asks))
    (hp : parseablePrices M (orderBook.Bids ++ orderBook.Asks) ≠ []) :
    calculateAveragePrice M orderBook =
      .ok (M.div (priceSum M (parseablePrices M (orderBook.Bids ++ orderBook.Asks)))
        (priceCount M (parseablePrices M (orderBook.Bids ++ orderBook.Asks)).length)) := by
  have hb : FieldsPresent orderBook.Bids := fun e he => hf e (List.mem_append_left _ he)
  have ha : FieldsPresent orderBook.Asks := fun e he => hf e (List.mem_append_right _ he)
  have hcount : M.eqZero (priceCount M
      (parseablePrices M (orderBook.Bids ++ orderBook.Asks)).length) = false := by
    obtain ⟨n, hn⟩ := Nat.exists_eq_succ_of_ne_zero
      (fun h0 => hp (List.length_eq_zero.mp h0))
    rw [hn]
    exact M.eqZero_incr n
  unfold calculateAveragePrice
  rw [sumPrices_of_fieldsPresent M _ _ hb]
  simp only
  rw [sumPrices_of_fieldsPresent M _ _ ha]
  have e1 : (parseablePrices M orderBook.Asks).foldl M.add
      ((parseablePrices M orderBook.Bids).foldl M.add M.zero) =
      priceSum M (parseablePrices M (orderBook.Bids ++ orderBook.Asks)) := by
    simp [priceSum, parseablePrices, List.filterMap_append, List.foldl_append]
  have e2 : (fun c => M.add c M.one)^[(parseablePrices M orderBook.Asks).length]
      ((fun c => M.add c M.one)^[(parseablePrices M orderBook.Bids).length] M.zero) =
      priceCount M (parseablePrices M (orderBook.Bids ++ orderBook.Asks)).length := by
    simp only [priceCount, parseablePrices, List.filterMap_append, List.length_append]
    rw [Nat.add_comm, Function.iterate_add_apply]
  simp only [e1, e2, hcount]
  rfl

/-- On an order book whose entries all have a first field, none of which
parses, `calculateAveragePrice` returns `0.0`. -/
theorem calculateAveragePrice_zero (M : Float64) (orderBook : OrderBook)
    (hf : FieldsPresent (orderBook.Bids ++ orderBook.Asks))
    (hp : parseablePrices M (orderBook.Bids ++ orderBook.Asks) = []) :
    calculateAveragePrice M orderBook = .ok M.zero := by
  have hb : FieldsPresent orderBook.Bids := fun e he => hf e (List.mem_append_left _ he)
  have ha : FieldsPresent orderBook.Asks := fun e he => hf e (List.mem_append_right _ he)
  have hpb : parseablePrices M orderBook.Bids = [] := by
    have := hp
    simp only [parseablePrices, List.filterMap_append, List.append_eq_nil] at this
    exact this.1
  have hpa : parseablePrices M orderBook.Asks = [] := by
    have := hp
    simp only [parseablePrices, List.filterMap_append, List.append_eq_nil] at this
    exact this.2
  unfold calculateAveragePrice
  rw [sumPrices_of_fieldsPresent M _ _ hb]
  simp only
  rw [sumPrices_of_fieldsPresent M _ _ ha]
  simp [hpb, hpa, M.eqZero_zero]

/-- The function `calculateAveragePrice` panics exactly on the order books that
have an entry without fields. -/
theorem calculateAveragePrice_error_iff (M : Float64) (orderBook : OrderBook) :
    calculateAveragePrice M orderBook = .error Panic.indexOutOfRange ↔
      [] ∈ orderBook.Bids ++ orderBook.Asks := by
  constructor
  · intro h
    by_contra hne
    have hf : FieldsPresent (orderBook.Bids ++ orderBook.Asks) :=
      fun e he h0 => hne (h0 ▸ he)
    by_cases hp : parseablePrices M (orderBook.Bids ++ orderBook.Asks) = []
    · rw [calculateAveragePrice_zero M orderBook hf hp] at h
      cases h
    · rw [calculateAveragePrice_mean M orderBook hf hp] at h
      cases h
  · intro h
    unfold calculateAveragePrice
    by_cases hb : [] ∈ orderBook.Bids
    · rw [sumPrices_of_fieldless M _ _ hb]
    · have ha : [] ∈ orderBook.Asks := by
        rcases List.mem_append.mp h with h1 | h1
        · exact absurd h1 hb
        · exact h1
      cases hs : sumPrices M orderBook.Bids (M.zero, M.zero) with
      | error e => cases e; rfl
      | ok acc => simp only; rw [sumPrices_of_fieldless M _ _ ha]

/-- The values `connectToBinance` sends are the averages of the decoded frames
that come before the first read error, in order, up to the first frame on which
`calculateAveragePrice` panics. -/
theorem connectToBinance_emitted (M : Float64) (reads : List ReadResult) :
    (connectToBinance M reads).emitted.map Except.ok =
      ((framesBeforeReadError reads).map (calculateAveragePrice M)).takeWhile isOk := by
  induction reads with
  | nil => simp [connectToBinance, framesBeforeReadError]
  | cons r rest ih =>
    cases r with
    | readError => simp [connectToBinance, framesBeforeReadError]
    | frame decoded =>
      cases decoded with
      | none => simpa [connectToBinance, framesBeforeReadError] using ih
      | some orderBook =>
        cases hc : calculateAveragePrice M orderBook with
        | error p => simp [connectToBinance, framesBeforeReadError, hc, isOk]
        | ok avgPrice =>
          simp only [connectToBinance, framesBeforeReadError, hc, List.map_cons,
            List.takeWhile_cons, isOk]
          simp [ih]

/-! ## Facts about the hub -/

theorem broadcastRange_clients {V : Type} (avgPrice : V) (writeErr : Client → Bool)
    (order : List Client) (s : Server V) :
    (broadcastRange avgPrice writeErr order s).clients =
      s.clients.filter (fun c => ¬ (c ∈ order ∧ writeErr c = true)) := by
  induction order generalizing s with
  | nil => simp [broadcastRange]
  | cons client rest ih =>
    unfold broadcastRange
    by_cases hm : client ∈ s.clients
    · by_cases hw : writeErr client = true
      · simp only [hm, hw, if_true]
        rw [ih]
        ext c
        simp only [Finset.mem_filter, Finset.mem_erase, List.mem_cons]
        by_cases hc : c = client
        · subst hc; simp [hw]
        · simp [hc]
      · rw [if_pos hm, if_neg hw, ih]
        ext c
        simp only [Finset.mem_filter, List.mem_cons]
        by_cases hc : c = client
        · subst hc; simp [hw]
        · simp [hc]
    · simp only [hm, if_false]
      rw [ih]
      ext c
      simp only [Finset.mem_filter, List.mem_cons]
      by_cases hc : c = client
      · subst hc; simp [hm]
      · simp [hc]

theorem broadcastRange_writes {V : Type} (avgPrice : V) (writeErr : Client → Bool)
    (order : List Client) (s : Server V) (hnd : order.Nodup)
    (hsub : ∀ c ∈ order, c ∈ s.clients) :
    (broadcastRange avgPrice writeErr order s).writes =
      s.writes ++ order.map (fun c => (c, avgPrice)) := by
  induction order generalizing s with
  | nil => simp [broadcastRange]
  | cons client rest ih =>
    have hm : client ∈ s.clients := hsub client (List.mem_cons_self _ _)
    have hnd' : rest.Nodup := (List.nodup_cons.mp hnd).2
    have hni : client ∉ rest := (List.nodup_cons.mp hnd).1
    unfold broadcastRange
    by_cases hw : writeErr client = true
    · simp only [hm, hw, if_true]
      rw [ih _ hnd']
      · simp
      · intro c hc
        refine Finset.mem_erase.mpr ⟨?_, hsub c (List.mem_cons_of_mem _ hc)⟩
        intro h
        exact hni (h ▸ hc)
    · rw [if_pos hm, if_neg hw, ih _ hnd']
      · simp
      · intro c hc
        exact hsub c (List.mem_cons_of_mem _ hc)

theorem broadcastRange_closed {V : Type} (avgPrice : V) (writeErr : Client → Bool)
    (order : List Client) (s : Server V) (hnd : order.Nodup)
    (hsub : ∀ c ∈ order, c ∈ s.clients) :
    (broadcastRange avgPrice writeErr order s).closed =
      s.closed ++ order.filter (fun c => writeErr c) := by
  induction order generalizing s with
  | nil => simp [broadcastRange]
  | cons client rest ih =>
    have hm : client ∈ s.clients := hsub client (List.mem_cons_self _ _)
    have hnd' : rest.Nodup := (List.nodup_cons.mp hnd).2
    have hni : client ∉ rest := (List.nodup_cons.mp hnd).1
    unfold broadcastRange
    by_cases hw : writeErr client = true
    · simp only [hm, hw, if_true]
      rw [ih _ hnd']
      · simp [List.filter_cons, hw]
      · intro c hc
        refine Finset.mem_erase.mpr ⟨?_, hsub c (List.mem_cons_of_mem _ hc)⟩
        intro h
        exact hni (h ▸ hc)
    · rw [if_pos hm, if_neg hw, ih _ hnd']
      · simp [List.filter_cons, hw]
      · intro c hc
        exact hsub c (List.mem_cons_of_mem _ hc)

theorem workerRange_clients {V : Type} (msg : V) (order : List Client) (s : Server V) :
    (workerRange msg order s).clients = s.clients := by
  induction order generalizing s with
  | nil => rfl
  | cons client rest ih =>
    unfold workerRange
    by_cases hm : client ∈ s.clients
    · simp only [hm, if_true]; rw [ih]
    · simp only [hm, if_false]; rw [ih]

theorem workerRange_closed {V : Type} (msg : V) (order : List Client) (s : Server V) :
    (workerRange msg order s).closed = s.closed := by
  induction order generalizing s with
  | nil => rfl
  | cons client rest ih =>
    unfold workerRange
    by_cases hm : client ∈ s.clients
    · simp only [hm, if_true]; rw [ih]
    · simp only [hm, if_false]; rw [ih]

theorem workerRange_writes {V : Type} (msg : V) (order : List Client) (s : Server V)
    (hsub : ∀ c ∈ order, c ∈ s.clients) :
    (workerRange msg order s).writes = s.writes ++ order.map (fun c => (c, msg)) := by
  induction order generalizing s with
  | nil => simp [workerRange]
  | cons client rest ih =>
    have hm : client ∈ s.clients := hsub client (List.mem_cons_self _ _)
    unfold workerRange
    simp only [hm, if_true]
    rw [ih]
    · simp
    · intro c hc
      exact hsub c (List.mem_cons_of_mem _ hc)

theorem rangeOrder_mem {order : List Client} {clients : Finset Client}
    (h : RangeOrder order clients) (c : Client) : c ∈ order ↔ c ∈ clients := by
  rw [← h.2]; simp

theorem run_append {V : Type} (s : Server V) (xs ys : List (Event V)) :
    s.run (xs ++ ys) = (s.run xs).run ys := by
  simp [Server.run, List.foldl_append]

/-- Without a failing write, membership after any run from the empty registry is
"the most recent join/leave event is a join". -/
theorem run_mem_iff {V : Type} (events : List (Event V)) (h : NoWriteFails events)
    (client : Client) :
    client ∈ ((newServer V).run events).clients ↔ LastIsJoin client events := by
  induction events using List.reverseRecOn with
  | nil => simp [Server.run, newServer, LastIsJoin]
  | append_singleton evs e ih =>
    have hevs : NoWriteFails evs := fun x hx => h x (List.mem_append_left _ hx)
    have he : e.writesSucceed := h e (by simp)
    have ih' := ih hevs
    rw [run_append]
    unfold LastIsJoin at ih' ⊢
    rw [List.filterMap_append]
    cases e with
    | addClient c =>
      by_cases hc : c = client
      · subst hc
        simp [Server.run, Server.step, joinLeaveOf]
      · have hc' : client ≠ c := fun h => hc h.symm
        simp [Server.run, Server.step, joinLeaveOf, hc, hc'] at ih' ⊢
        exact ih'
    | removeClient c =>
      by_cases hc : c = client
      · subst hc
        simp [Server.run, Server.step, joinLeaveOf]
      · have hc' : client ≠ c := fun h => hc h.symm
        simp [Server.run, Server.step, joinLeaveOf, hc, hc'] at ih' ⊢
        exact ih'
    | broadcast avgPrice order writeErr =>
      have hw : ∀ c, writeErr c = false := he
      simp only [Server.run, List.foldl_cons, List.foldl_nil, Server.step,
        broadcastRange_clients, joinLeaveOf, List.filterMap_cons, List.filterMap_nil,
        List.append_nil]
      simp only [Server.run] at ih'
      rw [← ih']
      simp [hw]

theorem filter_fst_map_of_nodup {V : Type} (v : V) (order : List Client)
    (hnd : order.Nodup) (c : Client) :
    (order.map (fun x => (x, v))).filter (fun p => decide (p.1 = c)) =
      if c ∈ order then [(c, v)] else [] := by
  induction order with
  | nil => simp
  | cons x rest ih =>
    have hni : x ∉ rest := (List.nodup_cons.mp hnd).1
    have ih' := ih (List.nodup_cons.mp hnd).2
    by_cases hx : x = c
    · subst hx
      simp only [List.map_cons, List.filter_cons, decide_True, if_true, List.mem_cons,
        true_or]
      rw [ih', if_neg hni]
    · have hx' : ¬ c = x := fun h => hx h.symm
      simp only [List.map_cons, List.filter_cons, hx, decide_False, List.mem_cons, hx',
        false_or]
      simpa using ih'

theorem count_filter_of_nodup (writeErr : Client → Bool) (order : List Client)
    (hnd : order.Nodup) (c : Client) :
    (order.filter (fun x => writeErr x)).count c =
      if c ∈ order ∧ writeErr c = true then 1 else 0 := by
  by_cases hc : c ∈ order.filter (fun x => writeErr x)
  · rw [List.count_eq_one_of_mem (hnd.filter _) hc]
    have := List.mem_filter.mp hc
    rw [if_pos ⟨this.1, this.2⟩]
  · rw [List.count_eq_zero_of_not_mem hc]
    have : ¬ (c ∈ order ∧ writeErr c = true) := fun h => hc (List.mem_filter.mpr ⟨h.1, h.2⟩)
    rw [if_neg this]

/-! ## Facts about the lock discipline -/

theorem underLock_body (body rest : List Act) (h : ∀ a ∈ body, a.isMutex = false) :
    underLock true (body ++ .unlock :: rest) = underLock false rest := by
  induction body with
  | nil => simp [underLock]
  | cons a tl ih =>
    have htl : ∀ b ∈ tl, b.isMutex = false := fun b hb => h b (List.mem_cons_of_mem _ hb)
    have ha : a.isMutex = false := h a (List.mem_cons_self _ _)
    cases a <;> simp [Act.isMutex] at ha <;> simp [underLock, ih htl]

theorem broadcastActs_isMutex (writeErr : Client → Bool) (order : List Client)
    (clients : Finset Client) : ∀ a ∈ broadcastActs writeErr order clients, a.isMutex = false := by
  induction order generalizing clients with
  | nil => intro a ha; simp [broadcastActs] at ha; subst ha; rfl
  | cons client rest ih =>
    intro a ha
    unfold broadcastActs at ha
    by_cases hm : client ∈ clients
    · by_cases hw : writeErr client = true
      · rw [if_pos hm, if_pos hw] at ha
        simp only [List.mem_cons] at ha
        rcases ha with rfl | rfl | rfl | rfl | ha
        · rfl
        · rfl
        · rfl
        · rfl
        · exact ih _ a ha
      · rw [if_pos hm, if_neg hw] at ha
        simp only [List.mem_cons] at ha
        rcases ha with rfl | rfl | ha
        · rfl
        · rfl
        · exact ih _ a ha
    · rw [if_neg hm] at ha
      exact ih _ a ha

theorem workerActs_isMutex (order : List Client) (clients : Finset Client) :
    ∀ a ∈ workerActs order clients, a.isMutex = false := by
  induction order with
  | nil => intro a ha; simp [workerActs] at ha; subst ha; rfl
  | cons client rest ih =>
    intro a ha
    unfold workerActs at ha
    by_cases hm : client ∈ clients
    · rw [if_pos hm] at ha
      simp only [List.mem_cons] at ha
      rcases ha with rfl | rfl | ha
      · rfl
      · rfl
      · exact ih a ha
    · rw [if_neg hm] at ha
      exact ih a ha

theorem underLock_stepActs {V : Type} (s : Server V) (e : Event V) (rest : List Act) :
    underLock false (s.stepActs e ++ rest) = underLock false rest := by
  cases e with
  | addClient client => simp [Server.stepActs, underLock]
  | removeClient client => simp [Server.stepActs, underLock]
  | broadcast avgPrice order writeErr =>
    have hb := underLock_body _ rest (broadcastActs_isMutex writeErr order s.clients)
    show underLock false
      (Act.lock :: ((broadcastActs writeErr order s.clients ++ [Act.unlock]) ++ rest)) = _
    rw [List.append_assoc]
    simpa [underLock] using hb

theorem underLock_runActs {V : Type} (s : Server V) (events : List (Event V)) :
    underLock false (s.runActs events) = true := by
  induction events generalizing s with
  | nil => rfl
  | cons e rest ih =>
    simp only [Server.runActs]
    rw [underLock_stepActs]
    exact ih _

theorem underLock_workerRoundsActs {V : Type} (rounds : List (Server V × List Client)) :
    underLock false (workerRoundsActs rounds) = true := by
  induction rounds with
  | nil => rfl
  | cons r rest ih =>
    have hb := underLock_body _ (workerRoundsActs rest) (workerActs_isMutex r.2 r.1.clients)
    show underLock false
      (Act.lock :: ((workerActs r.2 r.1.clients ++ [Act.unlock]) ++ workerRoundsActs rest)) = _
    rw [List.append_assoc]
    simpa [underLock, ih] using hb

theorem underLock_acts {V : Type} (g : Goroutine V) : underLock false g.acts = true := by
  cases g with
  | run s events => exact underLock_runActs s events
  | worker rounds => exact underLock_workerRoundsActs rounds
  | handleConnections client => rfl

theorem insideCritical_of_underLock (held : Bool) (t : List Act)
    (h : underLock held t = true) : insideCritical t = held := by
  induction t generalizing held with
  | nil => cases held <;> simp_all [underLock, insideCritical]
  | cons a tl ih =>
    cases a <;> cases held <;> simp_all [underLock, insideCritical]

theorem registry_of_underLock (held : Bool) (a : Act) (t : List Act)
    (h : underLock held (a :: t) = true) (ha : a.isRegistry = true) : held = true := by
  cases a <;> cases held <;> simp_all [underLock, Act.isRegistry]

theorem disciplined_start {V : Type} (gs : List (Goroutine V)) :
    (Interleaving.start gs).Disciplined := by
  intro i t ht
  simp only [Interleaving.start, List.getElem?_map, Option.map_eq_some'] at ht
  obtain ⟨g, _, rfl⟩ := ht
  simpa [Interleaving.start] using underLock_acts g

theorem disciplined_step (c d : Interleaving) (i : Nat) (hc : c.Disciplined)
    (h : c.step i = some d) : d.Disciplined := by
  unfold Interleaving.step at h
  cases hp : c.pending[i]? with
  | none => simp [hp] at h
  | some t =>
    have hi := hc i t hp
    cases t with
    | nil => simp [hp] at h
    | cons a rest =>
      have key : ∀ (hold : Option Nat), d = ⟨hold, c.pending.set i rest⟩ →
          underLock (decide (hold = some i)) rest = true →
          (∀ j, j ≠ i → decide (hold = some j) = decide (c.holder = some j)) →
          d.Disciplined := by
        intro hold hd hrest hother j t ht
        subst hd
        by_cases hji : j = i
        · subst hji
          simp only at ht ⊢
          rw [List.getElem?_set] at ht
          simp only [if_true] at ht
          split at ht
          · cases ht; exact hrest
          · cases ht
        · simp only at ht ⊢
          rw [List.getElem?_set_ne (fun h => hji h.symm)] at ht
          rw [hother j hji]
          exact hc j t ht
      cases a with
      | lock =>
        simp only [hp] at h
        by_cases hh : c.holder = none
        · rw [if_pos hh] at h
          simp only [Option.some.injEq] at h
          simp only [hh, underLock] at hi
          refine key (some i) h.symm (by simpa using hi) ?_
          intro j hj
          simp only [hh, Option.some.injEq, reduceCtorEq, decide_False, decide_eq_false_iff_not]
          exact fun h => hj h.symm
        · rw [if_neg hh] at h; cases h
      | unlock =>
        simp only [hp] at h
        by_cases hh : c.holder = none
        · rw [if_pos hh] at h; cases h
        · rw [if_neg hh] at h
          simp only [Option.some.injEq] at h
          simp only [underLock, Bool.and_eq_true, decide_eq_true_eq] at hi
          refine key none h.symm (by simpa using hi.2) ?_
          intro j hj
          simp only [hi.1, Option.some.injEq, reduceCtorEq, decide_False]
          exact (decide_eq_false (fun h => hj h.symm)).symm
      | mapInsert client =>
        simp only [hp, Option.some.injEq] at h
        simp only [underLock, Bool.and_eq_true] at hi
        exact key c.holder h.symm hi.2 (fun _ _ => rfl)
      | mapDelete client =>
        simp only [hp, Option.some.injEq] at h
        simp only [underLock, Bool.and_eq_true] at hi
        exact key c.holder h.symm hi.2 (fun _ _ => rfl)
      | mapRange next =>
        simp only [hp, Option.some.injEq] at h
        simp only [underLock, Bool.and_eq_true] at hi
        exact key c.holder h.symm hi.2 (fun _ _ => rfl)
      | connWrite client =>
        simp only [hp, Option.some.injEq] at h
        simp only [underLock] at hi
        exact key c.holder h.symm hi (fun _ _ => rfl)
      | connClose client =>
        simp only [hp, Option.some.injEq] at h
        simp only [underLock] at hi
        exact key c.holder h.symm hi (fun _ _ => rfl)

theorem disciplined_exec (c d : Interleaving) (schedule : List Nat) (hc : c.Disciplined)
    (h : c.exec schedule = some d) : d.Disciplined := by
  induction schedule generalizing c with
  | nil => simp only [Interleaving.exec, Option.some.injEq] at h; exact h ▸ hc
  | cons i rest ih =>
    simp only [Interleaving.exec] at h
    cases hs : c.step i with
    | none => simp [hs] at h
    | some e =>
      simp only [hs] at h
      exact ih e (disciplined_step c e i hc hs) h

theorem applyActs_broadcastActs (writeErr : Client → Bool) (order : List Client)
    (clients : Finset Client) (rest : List Act) {V : Type} (avgPrice : V) (s : Server V)
    (hs : s.clients = clients) :
    applyActs clients (broadcastActs writeErr order clients ++ rest) =
      applyActs (broadcastRange avgPrice writeErr order s).clients rest := by
  induction order generalizing clients s with
  | nil => subst hs; simp [broadcastActs, broadcastRange, applyActs]
  | cons client tl ih =>
    subst hs
    unfold broadcastActs broadcastRange
    by_cases hm : client ∈ s.clients
    · by_cases hw : writeErr client = true
      · rw [if_pos hm, if_pos hw, if_pos hm, if_pos hw]
        simp only [List.cons_append, applyActs]
        exact ih _ _ rfl
      · rw [if_pos hm, if_neg hw, if_pos hm, if_neg hw]
        simp only [List.cons_append, applyActs]
        exact ih _ _ rfl
    · rw [if_neg hm, if_neg hm]
      exact ih _ _ rfl

/-- The inserts and deletes among the actions of one pass of `run` make the
registry of `Server.step`. -/
theorem applyActs_stepActs {V : Type} (s : Server V) (e : Event V) :
    applyActs s.clients (s.stepActs e) = (s.step e).clients := by
  cases e with
  | addClient client => simp [Server.stepActs, Server.step, applyActs]
  | removeClient client => simp [Server.stepActs, Server.step, applyActs]
  | broadcast avgPrice order writeErr =>
    simp only [Server.stepActs, Server.step, applyActs]
    rw [applyActs_broadcastActs writeErr order s.clients [Act.unlock] avgPrice s rfl]
    simp [applyActs]

/-! ## The scenarios of the specification, on exact decimals -/

theorem parseDecimal_100 : parseDecimal "100.0" = some 100 := by
  simp [parseDecimal, digitsValue, List.span, List.span.loop]

theorem parseDecimal_102 : parseDecimal "102.0" = some 102 := by
  simp [parseDecimal, digitsValue, List.span, List.span.loop]

theorem parseDecimal_abc : parseDecimal "abc" = none := by
  simp [parseDecimal, digitsValue, List.span, List.span.loop]

/-- Scenario 1: bids `[["100.0","1"]]`, asks `[["102.0","1"]]` average to `101`. -/
theorem scenario_average_101 :
    calculateAveragePrice ratModel ⟨0, [["100.0", "1"]], [["102.0", "1"]]⟩ =
      .ok (101 : ℚ) := by
  simp only [calculateAveragePrice, sumPrices, ratModel, parseDecimal_100, parseDecimal_102]
  norm_num

/-- Scenario 2: bids `[["abc","1"]]`, no asks: the result is `0`. -/
theorem scenario_average_zero :
    calculateAveragePrice ratModel ⟨0, [["abc", "1"]], []⟩ = .ok (0 : ℚ) := by
  simp [calculateAveragePrice, sumPrices, ratModel, parseDecimal_abc]

/-! ## The claims -/

/-- C1: the mean of the parseable prices is claimed for every order book with a
parseable entry.  Here the bid `"100.0"` parses, the only ask has no fields, and
`calculateAveragePrice` panics with an index out of range, whatever the
arithmetic and the parser are. -/
theorem calculateAveragePrice_parseable_bid_fieldless_ask :
    parseDecimal "100.0" = some 100 ∧
    ∀ M : Float64, calculateAveragePrice M ⟨0, [["100.0", "1"]], [[]]⟩ =
      .error Panic.indexOutOfRange :=
  ⟨parseDecimal_100, fun M => by
    cases hp : M.ParseFloat "100.0" <;> simp [calculateAveragePrice, sumPrices, hp]⟩

/-- C2: `0.0` is claimed for every order book without a parseable first field.
Here `"abc"` does not parse, the second bid has no fields, and
`calculateAveragePrice` panics with an index out of range instead of returning
`0.0`. -/
theorem calculateAveragePrice_unparseable_bid_fieldless_bid :
    parseDecimal "abc" = none ∧
    ∀ M : Float64, calculateAveragePrice M ⟨0, [["abc", "1"], []], []⟩ =
      .error Panic.indexOutOfRange :=
  ⟨parseDecimal_abc, fun M => by
    cases hp : M.ParseFloat "abc" <;> simp [calculateAveragePrice, sumPrices, hp]⟩

/-- C3: when no client write fails, after any sequence of join, leave and value
events run from the empty registry a handle is a member exactly when its most
recent join/leave event is a join; joining a member again and a leave of a
non-member both leave the registry as it was. -/
theorem run_membership_is_last_join {V : Type} (events : List (Event V))
    (h : NoWriteFails events) :
    (∀ client, client ∈ ((newServer V).run events).clients ↔ LastIsJoin client events) ∧
    (∀ client, client ∈ ((newServer V).run events).clients →
      ((newServer V).run (events ++ [.addClient client])).clients =
        ((newServer V).run events).clients) ∧
    (∀ client, client ∉ ((newServer V).run events).clients →
      ((newServer V).run (events ++ [.removeClient client])).clients =
        ((newServer V).run events).clients) := by
  refine ⟨fun client => run_mem_iff events h client, ?_, ?_⟩
  · intro client hm
    rw [run_append]
    simp only [Server.run, List.foldl_cons, List.foldl_nil, Server.step]
    exact Finset.insert_eq_of_mem hm
  · intro client hm
    rw [run_append]
    simp only [Server.run, List.foldl_cons, List.foldl_nil, Server.step]
    exact Finset.erase_eq_of_not_mem hm

theorem run_membership_is_last_join_witness :
    NoWriteFails sampleEvents ∧
    (1 ∈ ((newServer ℚ).run sampleEvents).clients ↔ LastIsJoin 1 sampleEvents) ∧
    (3 ∈ ((newServer ℚ).run sampleEvents).clients ↔ LastIsJoin 3 sampleEvents) :=
  have hs : NoWriteFails sampleEvents := by
    intro e he
    simp only [sampleEvents, List.mem_cons, List.mem_singleton, List.not_mem_nil,
      or_false] at he
    rcases he with rfl | rfl | rfl | rfl | rfl <;> simp [Event.writesSucceed]
  ⟨hs, (run_membership_is_last_join sampleEvents hs).1 1,
    (run_membership_is_last_join sampleEvents hs).1 3⟩

/-- C4: one value event of the run loop leaves in the registry exactly the
handles that were in it and whose write succeeded: a handle whose write failed
is gone, a handle whose write succeeded stays, and none is added. -/
theorem broadcast_removes_exactly_failed {V : Type} (s : Server V) (avgPrice : V)
    (order : List Client) (writeErr : Client → Bool) (h : RangeOrder order s.clients) :
    (s.step (.broadcast avgPrice order writeErr)).clients =
        s.clients.filter (fun c => writeErr c = false) ∧
    (∀ c ∈ s.clients, writeErr c = true →
        c ∉ (s.step (.broadcast avgPrice order writeErr)).clients) ∧
    (∀ c ∈ s.clients, writeErr c = false →
        c ∈ (s.step (.broadcast avgPrice order writeErr)).clients) ∧
    (s.step (.broadcast avgPrice order writeErr)).clients ⊆ s.clients := by
  have key : (s.step (.broadcast avgPrice order writeErr)).clients =
      s.clients.filter (fun c => writeErr c = false) := by
    simp only [Server.step, broadcastRange_clients]
    ext c
    simp only [Finset.mem_filter]
    constructor
    · rintro ⟨hc, hn⟩
      refine ⟨hc, ?_⟩
      cases hw : writeErr c
      · rfl
      · exact absurd ⟨(rangeOrder_mem h c).mpr hc, hw⟩ hn
    · rintro ⟨hc, hw⟩
      exact ⟨hc, fun hn => by simp [hw] at hn⟩
  refine ⟨key, ?_, ?_, ?_⟩
  · intro c _ hw hc
    rw [key] at hc
    have := (Finset.mem_filter.mp hc).2
    simp [hw] at this
  · intro c hc hw
    rw [key]
    exact Finset.mem_filter.mpr ⟨hc, hw⟩
  · rw [key]
    exact Finset.filter_subset _ _

theorem broadcast_removes_exactly_failed_witness :
    RangeOrder [3, 1, 2] afterFirstBroadcast.clients ∧
    (afterFirstBroadcast.step (.broadcast (199 / 2) [3, 1, 2] (fun c => c == 2))).clients =
      afterFirstBroadcast.clients.filter (fun c => (c == 2) = false) ∧
    (afterFirstBroadcast.step
      (.broadcast (199 / 2) [3, 1, 2] (fun c => c == 2))).clients.card = 2 :=
  ⟨by decide,
   (broadcast_removes_exactly_failed afterFirstBroadcast (199 / 2) [3, 1, 2]
      (fun c => c == 2) (by decide)).1,
   by decide⟩

/-- C5: a broadcast round of `v`, in the run loop and in a worker alike, makes
its write attempts in the order of the iteration, one per key; the attempts of
the round addressed to a handle are exactly one attempt carrying `v` when the
handle is in the registry at the start of the round and none otherwise,
whichever writes fail. -/
theorem round_attempts_each_member_once {V : Type} (s : Server V) (v : V)
    (order : List Client) (writeErr : Client → Bool) (h : RangeOrder order s.clients) :
    writesSince s (s.step (.broadcast v order writeErr)) = order.map (fun c => (c, v)) ∧
    writesSince s (s.worker v order) = order.map (fun c => (c, v)) ∧
    (∀ c, (writesSince s (s.step (.broadcast v order writeErr))).filter
        (fun p => decide (p.1 = c)) = if c ∈ s.clients then [(c, v)] else []) ∧
    (∀ c, (writesSince s (s.worker v order)).filter
        (fun p => decide (p.1 = c)) = if c ∈ s.clients then [(c, v)] else []) := by
  have hsub : ∀ c ∈ order, c ∈ s.clients := fun c hc => (rangeOrder_mem h c).mp hc
  have e1 : writesSince s (s.step (.broadcast v order writeErr)) =
      order.map (fun c => (c, v)) := by
    simp [writesSince, Server.step, broadcastRange_writes v writeErr order s h.1 hsub]
  have e2 : writesSince s (s.worker v order) = order.map (fun c => (c, v)) := by
    simp [writesSince, Server.worker, workerRange_writes v order s hsub]
  have e3 : ∀ c, (order.map (fun x => (x, v))).filter (fun p => decide (p.1 = c)) =
      if c ∈ s.clients then [(c, v)] else [] := by
    intro c
    rw [filter_fst_map_of_nodup v order h.1 c]
    by_cases hc : c ∈ s.clients
    · rw [if_pos hc, if_pos ((rangeOrder_mem h c).mpr hc)]
    · rw [if_neg hc, if_neg (fun hx => hc ((rangeOrder_mem h c).mp hx))]
  refine ⟨e1, e2, ?_, ?_⟩
  · intro c; rw [e1]; exact e3 c
  · intro c; rw [e2]; exact e3 c

theorem round_attempts_each_member_once_witness :
    RangeOrder [3, 1, 2] threeClients.clients ∧
    writesSince threeClients
      (threeClients.step (.broadcast 101 [3, 1, 2] (fun c => c == 3))) =
      [(3, 101), (1, 101), (2, 101)] ∧
    writesSince threeClients (threeClients.worker 101 [3, 1, 2]) =
      [(3, 101), (1, 101), (2, 101)] :=
  ⟨by decide,
   (round_attempts_each_member_once threeClients 101 [3, 1, 2]
      (fun c => c == 3) (by decide)).1,
   (round_attempts_each_member_once threeClients 101 [3, 1, 2]
      (fun c => c == 3) (by decide)).2.1⟩

/-- C6: a worker round is claimed to close and remove the handles whose write
fails, like the value event of the run loop.  With one registered handle whose
write fails, the worker round closes nothing and keeps the handle, while the
value event of the run loop closes it and removes it. -/
theorem worker_round_keeps_failed_handle :
    ((Server.mk {7} [] [] : Server ℚ).worker 101 [7]).clients = {7} ∧
    ((Server.mk {7} [] [] : Server ℚ).worker 101 [7]).closed = [] ∧
    ((Server.mk {7} [] [] : Server ℚ).step (.broadcast 101 [7] (fun _ => true))).clients = ∅ ∧
    ((Server.mk {7} [] [] : Server ℚ).step (.broadcast 101 [7] (fun _ => true))).closed = [7] := by
  refine ⟨?_, ?_, ?_, ?_⟩ <;> decide

/-- C7: one average per decoded frame before the first read error is claimed.
Here the first frame decodes to an order book with a bid without fields, the
second is the frame of scenario 1 (average `101`), then the read fails: the loop
panics in the first frame and sends nothing. -/
theorem connectToBinance_fieldless_frame_sends_nothing :
    calculateAveragePrice ratModel ⟨0, [["100.0", "1"]], [["102.0", "1"]]⟩ =
      .ok (101 : ℚ) ∧
    ∀ M : Float64,
      (connectToBinance M
        [.frame (some ⟨0, [[]], []⟩),
         .frame (some ⟨0, [["100.0", "1"]], [["102.0", "1"]]⟩),
         .readError]).emitted = [] ∧
      (connectToBinance M
        [.frame (some ⟨0, [[]], []⟩),
         .frame (some ⟨0, [["100.0", "1"]], [["102.0", "1"]]⟩),
         .readError]).exit = .panicked Panic.indexOutOfRange :=
  ⟨scenario_average_101, fun M => by
    constructor <;> simp [connectToBinance, calculateAveragePrice, sumPrices]⟩

/-- C8: in `run` and in `worker` every read or write of the registry (the insert
of a join, the delete of a leave, each advance of the range of a round, the
delete of a failed handle) is made between the `Lock` and the `Unlock` of its
branch, and the iteration of a round is one such section without a `Lock` or an
`Unlock` inside.  So in every state that the goroutines reach under the
semantics of the mutex, a goroutine about to access the registry holds the
lock, a goroutine is inside a critical section exactly when it is the holder,
and no two goroutines are inside critical sections at once. -/
theorem registry_access_under_lock {V : Type} (gs : List (Goroutine V))
    (schedule : List Nat) (c : Interleaving)
    (h : (Interleaving.start gs).exec schedule = some c) :
    (∀ g : Goroutine V, underLock false g.acts = true) ∧
    (∀ (s : Server V) (avgPrice : V) (order : List Client) (writeErr : Client → Bool),
      s.stepActs (.broadcast avgPrice order writeErr) =
        .lock :: (broadcastActs writeErr order s.clients ++ [.unlock]) ∧
      ∀ a ∈ broadcastActs writeErr order s.clients, a.isMutex = false) ∧
    (∀ (s : Server V) (order : List Client),
      s.workerRoundActs order = .lock :: (workerActs order s.clients ++ [.unlock]) ∧
      ∀ a ∈ workerActs order s.clients, a.isMutex = false) ∧
    (∀ (i : Nat) (a : Act) (rest : List Act), c.pending[i]? = some (a :: rest) → a.isRegistry = true →
      c.holder = some i) ∧
    (∀ (i : Nat) (t : List Act), c.pending[i]? = some t →
      (insideCritical t = true ↔ c.holder = some i)) ∧
    (∀ (i j : Nat) (t u : List Act), c.pending[i]? = some t → c.pending[j]? = some u →
      insideCritical t = true → insideCritical u = true → i = j) := by
  have hd : c.Disciplined :=
    disciplined_exec _ c schedule (disciplined_start gs) h
  have hin : ∀ i t, c.pending[i]? = some t →
      (insideCritical t = true ↔ c.holder = some i) := by
    intro i t ht
    rw [insideCritical_of_underLock _ t (hd i t ht)]
    simp
  refine ⟨underLock_acts, ?_, ?_, ?_, hin, ?_⟩
  · intro s avgPrice order writeErr
    exact ⟨rfl, broadcastActs_isMutex writeErr order s.clients⟩
  · intro s order
    exact ⟨rfl, workerActs_isMutex order s.clients⟩
  · intro i a rest ht ha
    have := registry_of_underLock _ a rest (hd i _ ht) ha
    simpa using this
  · intro i j t u ht hu hit hiu
    have h1 := (hin i t ht).mp hit
    have h2 := (hin j u hu).mp hiu
    rw [h1] at h2
    exact Option.some.inj h2

theorem registry_access_under_lock_witness :
    (Interleaving.start sampleGoroutines).exec sampleSchedule = some sampleReached ∧
    sampleReached.holder = some 1 ∧
    (insideCritical [Act.mapRange none, Act.unlock] = true ↔
      sampleReached.holder = some 1) ∧
    (Interleaving.start sampleGoroutines).exec (sampleSchedule ++ [0]) = none :=
  ⟨by decide,
   (registry_access_under_lock sampleGoroutines sampleSchedule sampleReached
      (by decide)).2.2.2.1 1 (Act.mapRange none) [Act.unlock] (by decide) (by decide),
   (registry_access_under_lock sampleGoroutines sampleSchedule sampleReached
      (by decide)).2.2.2.2.1 1 [Act.mapRange none, Act.unlock] (by decide),
   by decide⟩

/-- C9: in the run loop a join and a leave close no connection, and a value
event closes, once each, the connections of the registered handles whose write
failed in that event and no other connection. -/
theorem run_closes_exactly_failed {V : Type} (s : Server V) (client : Client)
    (avgPrice : V) (order : List Client) (writeErr : Client → Bool)
    (h : RangeOrder order s.clients) :
    (s.step (.addClient client)).closed = s.closed ∧
    (s.step (.removeClient client)).closed = s.closed ∧
    (s.step (.broadcast avgPrice order writeErr)).closed =
      s.closed ++ order.filter (fun c => writeErr c) ∧
    (∀ c, (order.filter (fun c => writeErr c)).count c =
      if c ∈ s.clients ∧ writeErr c = true then 1 else 0) := by
  have hsub : ∀ c ∈ order, c ∈ s.clients := fun c hc => (rangeOrder_mem h c).mp hc
  refine ⟨rfl, rfl, ?_, ?_⟩
  · simp only [Server.step]
    exact broadcastRange_closed avgPrice writeErr order s h.1 hsub
  · intro c
    rw [count_filter_of_nodup writeErr order h.1 c]
    by_cases hc : c ∈ s.clients ∧ writeErr c = true
    · rw [if_pos hc, if_pos ⟨(rangeOrder_mem h c).mpr hc.1, hc.2⟩]
    · rw [if_neg hc, if_neg (fun hx => hc ⟨(rangeOrder_mem h c).mp hx.1, hx.2⟩)]

theorem run_closes_exactly_failed_witness :
    RangeOrder [3, 1, 2] threeClients.clients ∧
    (threeClients.step (.addClient 4)).closed = [] ∧
    (threeClients.step (.removeClient 1)).closed = [] ∧
    (threeClients.step (.broadcast 101 [3, 1, 2] (fun c => c == 1))).closed = [1] :=
  ⟨by decide,
   (run_closes_exactly_failed threeClients 4 101 [3, 1, 2] (fun c => c == 1) (by decide)).1,
   (run_closes_exactly_failed threeClients 1 101 [3, 1, 2] (fun c => c == 1) (by decide)).2.1,
   (run_closes_exactly_failed threeClients 1 101 [3, 1, 2]
     (fun c => c == 1) (by decide)).2.2.1⟩

/-- C10: a Metric is claimed for every order book the decoder can produce, an
entry without fields included.  On the order book whose only bid has no fields
`calculateAveragePrice` panics with an index out of range. -/
theorem calculateAveragePrice_fieldless_entry_panics (M : Float64) :
    calculateAveragePrice M ⟨0, [[]], []⟩ = .error Panic.indexOutOfRange := by
  simp [calculateAveragePrice, sumPrices]

end OrderBookSrv
